import Mathlib

/-!
Verification of the Akumuli compression primitives (src/include/compression.h).

The C++ header defines a base-128 varint codec (`Base128Int`), a byte-stream
adapter over a growable vector (`Base128StreamWriter` / `Base128StreamReader`),
and two stream decorators: delta encoding (`DeltaStreamWriter` /
`DeltaStreamReader`) and run-length encoding (`RLEStreamWriter` /
`RLEStreamReader`).

Shallow embedding conventions:
- a `TVal` of the chosen unsigned width `w` is a `Nat` together with the
  invariant that it is `< 2 ^ w`; every arithmetic step that truncates in C++
  (`|=` into a TVal, `++`, `--`, unsigned wrap-around) carries an explicit
  `% 2 ^ w`;
- a byte buffer is a `List Nat` of byte values; the growable
  `std::vector<unsigned char>` is a list we append to; a bounded iterator
  range `[begin, end)` is a list whose length is the capacity, and iterator
  positions are offsets from `begin` (so the C++ "return begin on error"
  sentinel is the offset 0);
- a read cursor into an immutable buffer is represented by the list of bytes
  that remain at and after the cursor;
- the `assert(value >= prev_)` in `DeltaStreamWriter::put` and the
  `assert(begin < end)` in `Base128Int::get` are modelled as checked
  preconditions: a violated precondition makes the operation return `none`;
- the loop counter `cnt` of `Base128Int::get` is kept as an unbounded natural
  number (on any input a decoder is actually run on it stays far below the
  width, so TVal truncation of `cnt` is never exercised);
- the two varint encode loops recurse on `value >>> 7`, which is smaller than
  `value` but not structurally so; to keep the functions kernel-computable
  they are written with a structural bound (`value` itself bounds the number
  of iterations), and the loop-shaped unfolding equation is proved for each
  (`Base128Int.putUnchecked_eq`, `Base128Int.putAux_eq`), so all reasoning
  happens against the source-shaped recurrences.
-/

namespace Akumuli

/-- Iteration bound trick for the encode loops: with `fuel` at least `value`,
the `fuel = 0` branch is unreachable, because the loop runs at most
`value` iterations (each iteration divides `value` by 128). -/
def Base128Int.putUncheckedGo : Nat → Nat → List Nat
  | 0, value => [value &&& 127]
  | fuel + 1, value =>
    if value >>> 7 = 0 then [value &&& 127]
    else (value &&& 127 ||| 128) :: Base128Int.putUncheckedGo fuel (value >>> 7)

/-- Unchecked varint encode, from the inserter overload of `Base128Int::put`:
emit the low 7 bits of the remaining value, with bit 7 set when more bytes
follow; shift right by 7; stop once the remaining value is zero.  The
source-shaped recurrence is `Base128Int.putUnchecked_eq`. -/
def Base128Int.putUnchecked (value : Nat) : List Nat :=
  Base128Int.putUncheckedGo value value

theorem Base128Int.shiftRight7_lt {value : Nat} (h : ¬ value >>> 7 = 0) :
    value >>> 7 < value := by
  rw [Nat.shiftRight_eq_div_pow]
  apply Nat.div_lt_self _ (by norm_num)
  rcases Nat.eq_zero_or_pos value with h0 | h0
  · subst h0; exact absurd (by simp) h
  · exact h0

theorem Base128Int.putUncheckedGo_fuel :
    ∀ f₁ f₂ value : Nat, value ≤ f₁ → value ≤ f₂ →
      Base128Int.putUncheckedGo f₁ value = Base128Int.putUncheckedGo f₂ value := by
  intro f₁
  induction f₁ with
  | zero =>
    intro f₂ value h1 _
    interval_cases value
    cases f₂ <;> simp [Base128Int.putUncheckedGo]
  | succ f ih =>
    intro f₂ value h1 h2
    match f₂ with
    | 0 =>
      interval_cases value
      simp [Base128Int.putUncheckedGo]
    | f' + 1 =>
      show Base128Int.putUncheckedGo (f + 1) value = Base128Int.putUncheckedGo (f' + 1) value
      by_cases h : value >>> 7 = 0
      · simp [Base128Int.putUncheckedGo, h]
      · have hlt := Base128Int.shiftRight7_lt h
        simp only [Base128Int.putUncheckedGo, if_neg h]
        rw [ih f' (value >>> 7) (by omega) (by omega)]

/-- Source-shaped unfolding of the unchecked varint encode loop. -/
theorem Base128Int.putUnchecked_eq (value : Nat) :
    Base128Int.putUnchecked value =
      if value >>> 7 = 0 then [value &&& 127]
      else (value &&& 127 ||| 128) :: Base128Int.putUnchecked (value >>> 7) := by
  by_cases h : value >>> 7 = 0
  · cases value with
    | zero => simp [Base128Int.putUnchecked, Base128Int.putUncheckedGo, h]
    | succ n => simp [Base128Int.putUnchecked, Base128Int.putUncheckedGo, h]
  · have hlt := Base128Int.shiftRight7_lt h
    rw [if_neg h]
    match value with
    | 0 => exact absurd (by simp) h
    | n + 1 =>
      show Base128Int.putUncheckedGo (n + 1) (n + 1) = _
      simp only [Base128Int.putUncheckedGo, if_neg h]
      rw [Base128Int.putUncheckedGo_fuel n ((n + 1) >>> 7) ((n + 1) >>> 7)
        (by omega) (by omega)]
      rfl

/-- Varint decode, from `Base128Int::get`; the bytes at and after the cursor
are the list argument.  Each step masks the low 7 bits of the current byte,
ors them into the accumulator shifted left by `cnt` (the accumulator is a
TVal of width `w`, hence the truncation), and stops at the first byte whose
continuation bit (bit 7) is clear.  Reading past the end of the range
(`assert(begin < end)` plus the unchecked walk) is modelled as `none`. -/
def Base128Int.get (w : Nat) : List Nat → Nat → Nat → Option (Nat × List Nat)
  | [], _, _ => none
  | b :: rest, cnt, acc =>
    let acc' := (acc ||| ((b &&& 127) <<< cnt)) % 2 ^ w
    if b &&& 128 = 0 then some (acc', rest)
    else Base128Int.get w rest (cnt + 7) acc'

/-- Iteration-bounded loop of the bounded overload of `Base128Int::put`,
writing into the range `buf` at offset `p`.  The consecutive stores
`*p = value & 0x7F` and `*p |= 0x80` of the source are written as the single
store of the combined byte.  Returns the pair (returned offset, final buffer
contents); the failure return of `begin` is offset `0`. -/
def Base128Int.putAuxGo : Nat → Nat → List Nat → Nat → Nat × List Nat
  | 0, value, buf, p => (p + 1, buf.set p (value &&& 127))
  | fuel + 1, value, buf, p =>
    if value >>> 7 = 0 then (p + 1, buf.set p (value &&& 127))
    else
      let buf' := buf.set p (value &&& 127 ||| 128)
      if p + 1 = buf.length then (0, buf')
      else Base128Int.putAuxGo fuel (value >>> 7) buf' (p + 1)

/-- Write loop of the bounded overload of `Base128Int::put`; the source-shaped
recurrence is `Base128Int.putAux_eq`. -/
def Base128Int.putAux (value : Nat) (buf : List Nat) (p : Nat) : Nat × List Nat :=
  Base128Int.putAuxGo value value buf p

theorem Base128Int.putAuxGo_fuel :
    ∀ f₁ f₂ value : Nat, ∀ buf : List Nat, ∀ p : Nat, value ≤ f₁ → value ≤ f₂ →
      Base128Int.putAuxGo f₁ value buf p = Base128Int.putAuxGo f₂ value buf p := by
  intro f₁
  induction f₁ with
  | zero =>
    intro f₂ value buf p h1 _
    interval_cases value
    cases f₂ <;> simp [Base128Int.putAuxGo]
  | succ f ih =>
    intro f₂ value buf p h1 h2
    match f₂ with
    | 0 =>
      interval_cases value
      simp [Base128Int.putAuxGo]
    | f' + 1 =>
      show Base128Int.putAuxGo (f + 1) value buf p = Base128Int.putAuxGo (f' + 1) value buf p
      by_cases h : value >>> 7 = 0
      · simp [Base128Int.putAuxGo, h]
      · have hlt := Base128Int.shiftRight7_lt h
        simp only [Base128Int.putAuxGo, if_neg h]
        by_cases hp : p + 1 = buf.length
        · simp [hp]
        · simp only [if_neg hp]
          rw [ih f' (value >>> 7) _ _ (by omega) (by omega)]

/-- Source-shaped unfolding of the bounded varint encode loop. -/
theorem Base128Int.putAux_eq (value : Nat) (buf : List Nat) (p : Nat) :
    Base128Int.putAux value buf p =
      if value >>> 7 = 0 then (p + 1, buf.set p (value &&& 127))
      else
        let buf' := buf.set p (value &&& 127 ||| 128)
        if p + 1 = buf.length then (0, buf')
        else Base128Int.putAux (value >>> 7) buf' (p + 1) := by
  by_cases h : value >>> 7 = 0
  · cases value with
    | zero => simp [Base128Int.putAux, Base128Int.putAuxGo, h]
    | succ n => simp [Base128Int.putAux, Base128Int.putAuxGo, h]
  · have hlt := Base128Int.shiftRight7_lt h
    rw [if_neg h]
    match value with
    | 0 => exact absurd (by simp) h
    | n + 1 =>
      show Base128Int.putAuxGo (n + 1) (n + 1) buf p = _
      simp only [Base128Int.putAuxGo, if_neg h]
      by_cases hp : p + 1 = buf.length
      · simp [hp]
      · simp only [if_neg hp]
        rw [Base128Int.putAuxGo_fuel n ((n + 1) >>> 7) ((n + 1) >>> 7) _ _
          (by omega) (by omega)]
        rfl

/-- Bounded overload of `Base128Int::put` over the range `[begin, end)`:
an empty range (`begin >= end`) fails immediately with the `begin` sentinel
(offset 0), before any byte is stored. -/
def Base128Int.put (value : Nat) (buf : List Nat) : Nat × List Nat :=
  if buf.length = 0 then (0, buf) else Base128Int.putAux value buf 0

/-! Arithmetic facts about the 7-bit group operations. -/

theorem and127_eq_mod (v : Nat) : v &&& 127 = v % 128 := by
  simpa using Nat.and_pow_two_sub_one_eq_mod v 7

theorem and128_eq_zero {v : Nat} (h : v < 128) : v &&& 128 = 0 := by
  have h7 : v &&& 2 ^ 7 = (v.testBit 7).toNat * 2 ^ 7 := Nat.and_two_pow v 7
  rw [Nat.testBit_lt_two_pow (by norm_num at h ⊢; omega)] at h7
  simpa using h7

theorem shiftRight7_eq_div (v : Nat) : v >>> 7 = v / 128 := by
  simpa using Nat.shiftRight_eq_div_pow v 7

theorem contByte_and128 (v : Nat) : (v &&& 127 ||| 128) &&& 128 = 128 := by
  rw [Nat.and_distrib_right, Nat.and_assoc]
  simp [show (127 &&& 128 : Nat) = 0 from by decide,
    show (128 &&& 128 : Nat) = 128 from by decide]

theorem contByte_and127 (v : Nat) : (v &&& 127 ||| 128) &&& 127 = v &&& 127 := by
  rw [Nat.and_distrib_right, Nat.and_assoc]
  simp [show (127 &&& 127 : Nat) = 127 from by decide,
    show (128 &&& 127 : Nat) = 0 from by decide]

theorem lor_shiftLeft_eq_add {acc : Nat} (x cnt : Nat) (h : acc < 2 ^ cnt) :
    acc ||| x <<< cnt = acc + x * 2 ^ cnt := by
  rw [Nat.shiftLeft_eq, mul_comm x, Nat.or_comm, ← Nat.mul_add_lt_is_or h x]
  ring

/-- Central varint round-trip invariant: decoding the encoding of `v`, with
`cnt` bits already consumed into accumulator `acc`, consumes exactly the
encoding and produces `acc + v * 2 ^ cnt`, as long as that value fits in the
chosen width. -/
theorem Base128Int.get_putUnchecked (w : Nat) :
    ∀ v cnt acc : Nat, ∀ rest : List Nat, acc < 2 ^ cnt →
      acc + v * 2 ^ cnt < 2 ^ w →
      Base128Int.get w (Base128Int.putUnchecked v ++ rest) cnt acc =
        some (acc + v * 2 ^ cnt, rest) := by
  intro v
  induction v using Nat.strong_induction_on with
  | _ v ih =>
    intro cnt acc rest hacc hfit
    rw [Base128Int.putUnchecked_eq v]
    by_cases h : v >>> 7 = 0
    · have hv128 : v < 128 := by
        rw [shiftRight7_eq_div] at h
        omega
      have hb : v &&& 127 = v := by
        rw [and127_eq_mod]
        exact Nat.mod_eq_of_lt hv128
      rw [if_pos h, List.singleton_append, Base128Int.get]
      simp only [hb]
      rw [if_pos (and128_eq_zero hv128)]
      rw [lor_shiftLeft_eq_add v cnt hacc, Nat.mod_eq_of_lt hfit]
    · have hstep : v % 128 + 128 * (v / 128) = v := Nat.mod_add_div v 128
      have hlow : v % 128 ≤ v := Nat.mod_le v 128
      rw [if_neg h, List.cons_append, Base128Int.get]
      simp only [contByte_and128, contByte_and127]
      rw [if_neg (by norm_num)]
      have hacc' : (acc ||| (v &&& 127) <<< cnt) % 2 ^ w = acc + v % 128 * 2 ^ cnt := by
        rw [and127_eq_mod, lor_shiftLeft_eq_add (v % 128) cnt hacc]
        exact Nat.mod_eq_of_lt (by nlinarith [hlow, hfit])
      rw [hacc']
      have harith : acc + v % 128 * 2 ^ cnt + v >>> 7 * 2 ^ (cnt + 7) =
          acc + v * 2 ^ cnt := by
        rw [shiftRight7_eq_div, pow_add]
        nlinarith [hstep]
      rw [ih (v >>> 7) (Base128Int.shiftRight7_lt h) (cnt + 7)
        (acc + v % 128 * 2 ^ cnt) rest
        (by
          have h1 : acc + v % 128 * 2 ^ cnt < 2 ^ cnt + 127 * 2 ^ cnt := by
            have : v % 128 ≤ 127 := by omega
            nlinarith
          have h2 : (2 : Nat) ^ (cnt + 7) = 128 * 2 ^ cnt := by
            rw [pow_add]; ring
          omega)
        (by rw [harith]; exact hfit)]
      rw [harith]

theorem Base128Int.putUnchecked_length_pos (v : Nat) :
    0 < (Base128Int.putUnchecked v).length := by
  rw [Base128Int.putUnchecked_eq]
  by_cases h : v >>> 7 = 0 <;> simp [h]

/-- The bounded encode loop succeeds, returning the offset one past the last
written byte, whenever the room left at offset `p` holds the encoding. -/
theorem Base128Int.putAux_success :
    ∀ v : Nat, ∀ buf : List Nat, ∀ p : Nat,
      p + (Base128Int.putUnchecked v).length ≤ buf.length →
      (Base128Int.putAux v buf p).1 = p + (Base128Int.putUnchecked v).length := by
  intro v
  induction v using Nat.strong_induction_on with
  | _ v ih =>
    intro buf p hroom
    rw [Base128Int.putAux_eq]
    by_cases h : v >>> 7 = 0
    · rw [Base128Int.putUnchecked_eq, if_pos h] at hroom ⊢
      simp [h]
    · have hlen : (Base128Int.putUnchecked v).length =
          1 + (Base128Int.putUnchecked (v >>> 7)).length := by
        rw [Base128Int.putUnchecked_eq, if_neg h]
        simp [Nat.add_comm]
      have hpos := Base128Int.putUnchecked_length_pos (v >>> 7)
      rw [hlen] at hroom ⊢
      rw [if_neg h]
      have hne : ¬ p + 1 = buf.length := by omega
      simp only [if_neg hne]
      have hset : (buf.set p (v &&& 127 ||| 128)).length = buf.length :=
        List.length_set buf p _
      rw [ih (v >>> 7) (Base128Int.shiftRight7_lt h) _ (p + 1) (by omega)]
      omega

/-- Claim C3: decoding the bytes produced by the unchecked (growable-sink)
encode of any representable value `v` of width `w`, including 0 and the
maximum, yields exactly `v` and consumes the whole encoding. -/
theorem spec_c3 (w v : Nat) (h : v < 2 ^ w) :
    Base128Int.get w (Base128Int.putUnchecked v) 0 0 = some (v, []) := by
  have hg := Base128Int.get_putUnchecked w v 0 0 [] (by norm_num) (by simpa using h)
  simpa using hg

/-- Witness for C3 at the 64-bit maximum value. -/
theorem spec_c3_witness :
    Base128Int.get 64 (Base128Int.putUnchecked (2 ^ 64 - 1)) 0 0 =
      some (2 ^ 64 - 1, []) :=
  spec_c3 64 (2 ^ 64 - 1) (by norm_num)

/-- Claim C7: a value whose varint encoding needs the maximal number
`ceil(w / 7)` of 7-bit groups is encoded by the bounded `put` into a range of
exactly that many bytes successfully, returning the offset one past the last
written byte (the whole capacity). -/
theorem spec_c7 (w v : Nat) (buf : List Nat) (hv : v < 2 ^ w)
    (hlen : (Base128Int.putUnchecked v).length = (w + 6) / 7)
    (hbuf : buf.length = (w + 6) / 7) :
    (Base128Int.put v buf).1 = buf.length := by
  have hpos := Base128Int.putUnchecked_length_pos v
  have hne : ¬ buf.length = 0 := by omega
  rw [Base128Int.put, if_neg hne]
  have hs := Base128Int.putAux_success v buf 0 (by omega)
  omega

/-- Witness for C7: the 32-bit maximum value needs ceil(32/7) = 5 groups and
fits exactly in a 5-byte range. -/
theorem spec_c7_witness :
    (Base128Int.put (2 ^ 32 - 1) (List.replicate 5 0)).1 =
      (List.replicate 5 0).length :=
  spec_c7 32 (2 ^ 32 - 1) (List.replicate 5 0) (by norm_num) (by decide) (by decide)

/-- Claim C9: called on a zero-capacity range (`begin >= end`), the bounded
`put` returns `begin` (offset 0) immediately and stores nothing, for every
value. -/
theorem spec_c9 (value : Nat) : Base128Int.put value [] = (0, []) := rfl

/-- Claim C1 is a code bug: on capacity exhaustion the bounded `put` does
return the original position (offset 0), but it has already stored partial
bytes.  Encoding 128 (a two-byte varint) into a one-byte range whose prior
content is the byte 0 returns the begin sentinel yet leaves the byte 0x80
behind: the prior contents are not left unmodified. -/
theorem spec_c1 :
    Base128Int.put 128 [0] = (0, [128]) ∧ ([128] : List Nat) ≠ [0] := by
  constructor
  · decide
  · decide

/-- Claim C10: if some byte of the range has its continuation bit clear, the
decode loop stops at the first such byte: it succeeds, consumes exactly the
bytes up to and including that byte, and the advanced cursor never passes the
end of the range.  (The loop itself performs no end-bound check, so this
holds only under that well-formed-input precondition.) -/
theorem spec_c10 (w : Nat) :
    ∀ B : List Nat, ∀ cnt acc : Nat, (∃ b ∈ B, b &&& 128 = 0) →
      ∃ v, Base128Int.get w B cnt acc =
          some (v, B.drop (B.findIdx (fun b => b &&& 128 == 0) + 1)) ∧
        B.findIdx (fun b => b &&& 128 == 0) + 1 ≤ B.length := by
  intro B
  induction B with
  | nil => intro cnt acc h; simp at h
  | cons b rest ih =>
    intro cnt acc h
    rw [Base128Int.get]
    by_cases hb : b &&& 128 = 0
    · refine ⟨(acc ||| (b &&& 127) <<< cnt) % 2 ^ w, ?_, ?_⟩
      · rw [if_pos hb]
        simp [List.findIdx_cons, hb]
      · simp [List.findIdx_cons, hb]
    · have hrest : ∃ b' ∈ rest, b' &&& 128 = 0 := by
        rcases h with ⟨b', hmem, hclear⟩
        rcases List.mem_cons.mp hmem with rfl | hmem'
        · exact absurd hclear hb
        · exact ⟨b', hmem', hclear⟩
      rcases ih (cnt + 7) ((acc ||| (b &&& 127) <<< cnt) % 2 ^ w) hrest with
        ⟨v, hget, hbound⟩
      refine ⟨v, ?_, ?_⟩
      · rw [if_neg hb, hget]
        have hfi : (b &&& 128 == 0) = false := by simp [hb]
        simp [List.findIdx_cons, hfi]
      · have hfi : (b &&& 128 == 0) = false := by simp [hb]
        simp only [List.findIdx_cons, hfi, cond_false, List.length_cons]
        omega

/-- Witness for C10: in the range [0x85, 0x03, 0x7F] the second byte is the
first with a clear continuation bit, so the decoder consumes exactly two
bytes and the cursor stays within the range. -/
theorem spec_c10_witness :
    ∃ v, Base128Int.get 64 [133, 3, 127] 0 0 =
        some (v, List.drop
          (List.findIdx (fun b => b &&& 128 == 0) [133, 3, 127] + 1) [133, 3, 127]) ∧
      List.findIdx (fun b => b &&& 128 == 0) [133, 3, 127] + 1 ≤
        ([133, 3, 127] : List Nat).length :=
  spec_c10 64 [133, 3, 127] 0 0 ⟨3, by decide, by decide⟩

/-! The stream layer.  The C++ classes are templates over the wrapped stream
type; here a write-side stream is a record of its `put` and `close`
operations over an explicit state type, and a read-side stream is a record
of its `next` operation, so the decorators compose over any inner stream
exactly as the templates do.  (`size()` merely forwards to the byte count of
the underlying vector and plays no role in the claims.) -/

structure WStream (σ : Type) where
  put : σ → Nat → Option σ
  close : σ → Option σ

structure RStream (σ : Type) where
  next : σ → Option (Nat × σ)

/-- Model of `Base128StreamWriter`: appends the varint encoding of each value to the
growable byte vector via the back-inserter overload of `Base128Int::put`;
`close` is a no-op. -/
def Base128StreamWriter : WStream (List Nat) where
  put := fun data value => some (data ++ Base128Int.putUnchecked value)
  close := fun data => some data

/-- Model of `Base128StreamReader`: decodes one varint at the cursor and advances it. -/
def Base128StreamReader (w : Nat) : RStream (List Nat) where
  next := fun rem => Base128Int.get w rem 0 0

/-- Model of `DeltaStreamWriter` over any wrapped stream: state is `prev_` (initially
zero) paired with the wrapped stream's state.  `put` checks the
`assert(value >= prev_)` precondition, forwards `value - prev_`, and updates
`prev_`. -/
def DeltaStreamWriter {σ : Type} (inner : WStream σ) : WStream (Nat × σ) where
  put := fun st value =>
    if value < st.1 then none
    else (inner.put st.2 (value - st.1)).map fun s => (value, s)
  close := fun st => (inner.close st.2).map fun s => (st.1, s)

/-- Release-semantics variant of `DeltaStreamWriter::put`: with `NDEBUG` the
assert vanishes and `value - prev_` is computed in the unsigned TVal domain,
wrapping modulo `2 ^ w`. -/
def DeltaStreamWriterNoAssert {σ : Type} (w : Nat) (inner : WStream σ) :
    WStream (Nat × σ) where
  put := fun st value =>
    (inner.put st.2 ((value + 2 ^ w - st.1 % 2 ^ w) % 2 ^ w)).map fun s => (value, s)
  close := fun st => (inner.close st.2).map fun s => (st.1, s)

/-- Model of `DeltaStreamReader`: reads a delta from the wrapped stream and adds it to
`prev_` in the TVal domain (wrapping modulo `2 ^ w`). -/
def DeltaStreamReader {σ : Type} (w : Nat) (inner : RStream σ) :
    RStream (Nat × σ) where
  next := fun st =>
    (inner.next st.2).map fun ds =>
      ((st.1 + ds.1) % 2 ^ w, ((st.1 + ds.1) % 2 ^ w, ds.2))

/-- Model of `RLEStreamWriter`: state is `prev_`, `reps_` (both TVals, initially zero)
and the wrapped stream's state.  On a value change a pending nonzero run is
committed as `reps_` then `prev_`; `reps_` is then reset and incremented in
the TVal domain.  `close` unconditionally commits the pending pair. -/
def RLEStreamWriter {σ : Type} (w : Nat) (inner : WStream σ) :
    WStream (Nat × Nat × σ) where
  put := fun st value =>
    if value ≠ st.1 then
      if st.2.1 ≠ 0 then
        match inner.put st.2.2 st.2.1 with
        | none => none
        | some s1 =>
          match inner.put s1 st.1 with
          | none => none
          | some s2 => some (value, (0 + 1) % 2 ^ w, s2)
      else some (value, (0 + 1) % 2 ^ w, st.2.2)
    else some (st.1, (st.2.1 + 1) % 2 ^ w, st.2.2)
  close := fun st =>
    match inner.put st.2.2 st.2.1 with
    | none => none
    | some s1 =>
      match inner.put s1 st.1 with
      | none => none
      | some s2 => some (st.1, st.2.1, s2)

/-- Model of `RLEStreamReader`: when `reps_` is exhausted, reads a fresh
(run-length, value) pair; each call decrements `reps_` in the TVal domain
(so a zero run length wraps around) and returns `prev_`. -/
def RLEStreamReader {σ : Type} (w : Nat) (inner : RStream σ) :
    RStream (Nat × Nat × σ) where
  next := fun st =>
    if st.2.1 = 0 then
      match inner.next st.2.2 with
      | none => none
      | some (r, s1) =>
        match inner.next s1 with
        | none => none
        | some (p, s2) => some (p, p, (r + (2 ^ w - 1)) % 2 ^ w, s2)
    else some (st.1, st.1, (st.2.1 + (2 ^ w - 1)) % 2 ^ w, st.2.2)

/-- Mock wrapped stream that records the exact sequence of values `put` into
it: the "any component satisfying the contract can be substituted" extension
point, used to observe what a decorator forwards. -/
def RecordStreamWriter : WStream (List Nat) where
  put := fun record value => some (record ++ [value])
  close := fun record => some record

/-- One `put` call per element of a list, in order. -/
def writeList {σ : Type} (ws : WStream σ) (s : σ) (values : List Nat) : Option σ :=
  values.foldlM ws.put s

/-- Feed each element to `put`, then call `close()` exactly once. -/
def writeAndClose {σ : Type} (ws : WStream σ) (s : σ) (values : List Nat) :
    Option σ :=
  (writeList ws s values).bind ws.close

/-- Perform `n` successive `next()` calls, collecting the returned values. -/
def readN {σ : Type} (rs : RStream σ) : Nat → σ → Option (List Nat × σ)
  | 0, s => some ([], s)
  | n + 1, s =>
    match rs.next s with
    | none => none
    | some (v, s1) =>
      match readN rs n s1 with
      | none => none
      | some (vs, s2) => some (v :: vs, s2)

/-- Delta-over-varint round trip: feed `S` through a `DeltaStreamWriter`
wrapping the byte-stream writer, then read `|S|` values through a
`DeltaStreamReader` wrapping a reader over the same bytes. -/
def deltaRoundtrip (w : Nat) (S : List Nat) : Option (List Nat) :=
  match writeList (DeltaStreamWriter Base128StreamWriter) (0, []) S with
  | none => none
  | some st =>
    match readN (DeltaStreamReader w (Base128StreamReader w)) S.length (0, st.2) with
    | none => none
    | some (vals, _) => some vals

/-- RLE-over-varint round trip: feed `S` through an `RLEStreamWriter` over
the byte-stream writer, `close()`, then read `|S|` values through an
`RLEStreamReader` over a reader of the same bytes. -/
def rleRoundtrip (w : Nat) (S : List Nat) : Option (List Nat) :=
  match writeAndClose (RLEStreamWriter w Base128StreamWriter) (0, 0, []) S with
  | none => none
  | some st =>
    match readN (RLEStreamReader w (Base128StreamReader w)) S.length (0, 0, st.2.2) with
    | none => none
    | some (vals, _) => some vals

/-- RLE-over-Delta-over-varint round trip with the checked delta
precondition. -/
def rleDeltaRoundtrip (w : Nat) (S : List Nat) : Option (List Nat) :=
  match writeAndClose (RLEStreamWriter w (DeltaStreamWriter Base128StreamWriter))
      (0, 0, 0, []) S with
  | none => none
  | some st =>
    match readN (RLEStreamReader w (DeltaStreamReader w (Base128StreamReader w)))
        S.length (0, 0, 0, st.2.2.2) with
    | none => none
    | some (vals, _) => some vals

/-- RLE-over-Delta-over-varint round trip with the release-semantics delta
writer (assert compiled out, wrap-around subtraction). -/
def rleDeltaRoundtripNoAssert (w : Nat) (S : List Nat) : Option (List Nat) :=
  match writeAndClose
      (RLEStreamWriter w (DeltaStreamWriterNoAssert w Base128StreamWriter))
      (0, 0, 0, []) S with
  | none => none
  | some st =>
    match readN (RLEStreamReader w (DeltaStreamReader w (Base128StreamReader w)))
        S.length (0, 0, 0, st.2.2.2) with
    | none => none
    | some (vals, _) => some vals

/-- Claim C6: after `put(5)` a delta writer rejects `put(3)`, because the
checked precondition `value >= prev_` fails (3 < 5); the first `put` alone
succeeds and emits the varint of 5. -/
theorem spec_c6 :
    writeList (DeltaStreamWriter Base128StreamWriter) (0, []) [5, 3] = none ∧
      writeList (DeltaStreamWriter Base128StreamWriter) (0, []) [5] =
        some (5, [5]) := by
  constructor
  · decide
  · decide

/-- Claim C8: the RLE writer alone over a wrapped stream forwards, for input
[1,1,1,2,2,3] followed by `close()`, exactly the pairs (3,1),(2,2),(1,3) in
count-then-value order (observed through a recording wrapped stream), and
over the byte-stream writer the symmetric reader decodes the bytes back to
[1,1,1,2,2,3]. -/
theorem spec_c8 :
    writeAndClose (RLEStreamWriter 64 RecordStreamWriter) (0, 0, []) [1, 1, 1, 2, 2, 3] =
        some (3, 1, [3, 1, 2, 2, 1, 3]) ∧
      rleRoundtrip 64 [1, 1, 1, 2, 2, 3] = some [1, 1, 1, 2, 2, 3] := by
  constructor
  · decide
  · decide

/-- Counterexample to claim C2 as stated: with the delta writer's checked
monotonicity precondition (which claim C6 and the error-handling design
require), the RLE-over-Delta stack cannot encode [100,100,100,105,105,110].
Committing the second run makes the RLE layer put the count 2 into the delta
writer right after the value 100, and 2 < 100 trips the assert, so the
pipeline fails instead of round-tripping. -/
theorem spec_c2_cex :
    rleDeltaRoundtrip 64 [100, 100, 100, 105, 105, 110] ≠
      some [100, 100, 100, 105, 105, 110] ∧
      rleDeltaRoundtrip 64 [100, 100, 100, 105, 105, 110] = none := by
  constructor
  · decide
  · decide

/-- Claim C2, amended: committing the second run of
[100,100,100,105,105,110] makes the RLE layer feed the non-monotonic value
sequence 3,100,2,... to the delta writer, so the checked stack rejects the
input; with the assertion compiled out (release semantics, wrap-around
subtraction) the same stack round-trips the sequence exactly. -/
theorem spec_c2 :
    rleDeltaRoundtripNoAssert 64 [100, 100, 100, 105, 105, 110] =
      some [100, 100, 100, 105, 105, 110] := by
  decide

set_option maxRecDepth 4000 in
/-- Counterexample to claim C5 as stated: at width 8 the run counter `reps_`
is an 8-bit TVal, so a run of 257 equal values wraps to a committed count of
1, and reading back 257 values fails (the reader exhausts the stream), so
the round trip does not reproduce the sequence. -/
theorem spec_c5_cex :
    rleRoundtrip 8 (List.replicate 257 1) ≠ some (List.replicate 257 1) ∧
      rleRoundtrip 8 (List.replicate 257 1) = none := by
  constructor
  · decide
  · decide

/-- Invariant for the delta round trip: from any writer state `(prev, data)`
with `prev` bounded and the remaining input a `≥ prev` chain of bounded
values, the writer appends some `tail` of bytes, and a delta reader starting
at the matching `prev` consumes exactly `tail` and reproduces the input. -/
theorem delta_write_read (w : Nat) :
    ∀ S : List Nat, ∀ prev : Nat, ∀ data : List Nat,
      List.Chain (· ≤ ·) prev S → (∀ x ∈ S, x < 2 ^ w) → prev < 2 ^ w →
      ∃ p' : Nat, ∃ tail : List Nat,
        writeList (DeltaStreamWriter Base128StreamWriter) (prev, data) S =
            some (p', data ++ tail) ∧
          ∀ rest : List Nat,
            readN (DeltaStreamReader w (Base128StreamReader w)) S.length
                (prev, tail ++ rest) =
              some (S, (p', rest)) := by
  intro S
  induction S with
  | nil =>
    intro prev data _ _ _
    refine ⟨prev, [], by simp [writeList], ?_⟩
    intro rest
    simp [readN]
  | cons v S' ih =>
    intro prev data hchain hbound hprev
    rcases List.chain_cons.mp hchain with ⟨hle, hchain'⟩
    have hv : v < 2 ^ w := hbound v (List.mem_cons_self v S')
    rcases ih v (data ++ Base128Int.putUnchecked (v - prev)) hchain'
        (fun x hx => hbound x (List.mem_cons_of_mem v hx)) hv with
      ⟨p', tail', hw, hr⟩
    refine ⟨p', Base128Int.putUnchecked (v - prev) ++ tail', ?_, ?_⟩
    · rw [writeList, List.foldlM_cons]
      have hput : (DeltaStreamWriter Base128StreamWriter).put (prev, data) v =
          some (v, data ++ Base128Int.putUnchecked (v - prev)) := by
        simp [DeltaStreamWriter, Base128StreamWriter, Nat.not_lt.mpr hle]
      rw [hput]
      show writeList (DeltaStreamWriter Base128StreamWriter)
          (v, data ++ Base128Int.putUnchecked (v - prev)) S' = _
      rw [hw, List.append_assoc]
    · intro rest
      have hd : v - prev < 2 ^ w := lt_of_le_of_lt (Nat.sub_le v prev) hv
      have hg := Base128Int.get_putUnchecked w (v - prev) 0 0 (tail' ++ rest)
        (by norm_num) (by simpa using hd)
      simp only [List.length_cons]
      rw [readN]
      have hnext : (DeltaStreamReader w (Base128StreamReader w)).next
          (prev, Base128Int.putUnchecked (v - prev) ++ (tail' ++ rest)) =
          some (v, (v, tail' ++ rest)) := by
        simp only [DeltaStreamReader, Base128StreamReader]
        rw [hg]
        simp [Option.map, Nat.add_sub_cancel' hle, Nat.mod_eq_of_lt hv]
      simp [hnext, hr]

/-- Claim C4: for every non-decreasing sequence of values of the chosen
width, writing through a delta writer over the byte stream and reading the
same count back through a delta reader over the same bytes yields the
sequence exactly, in order. -/
theorem spec_c4 (w : Nat) (S : List Nat) (hchain : S.Chain' (· ≤ ·))
    (hbound : ∀ x ∈ S, x < 2 ^ w) : deltaRoundtrip w S = some S := by
  have hchain0 : List.Chain (· ≤ ·) 0 S := by
    cases S with
    | nil => exact List.Chain.nil
    | cons v S' => exact List.Chain.cons (Nat.zero_le v) hchain
  rcases delta_write_read w S 0 [] hchain0 hbound (Nat.pos_pow_of_pos w (by norm_num))
    with ⟨p', tail, hw, hr⟩
  rw [List.nil_append] at hw
  have hr0 := hr []
  rw [List.append_nil] at hr0
  simp only [deltaRoundtrip, hw, hr0]

/-- Witness for C4 on a concrete non-decreasing sequence. -/
theorem spec_c4_witness : deltaRoundtrip 64 [100, 100, 105] = some [100, 100, 105] :=
  spec_c4 64 [100, 100, 105]
    (List.Chain.cons (by norm_num) (List.Chain.cons (by norm_num) List.Chain.nil))
    (by decide)

/-! Run decomposition of a sequence, used to reason about the RLE stream:
a sequence is the concatenation of its maximal runs of consecutive equal
values, and the RLE writer commits exactly one (count, value) pair per
maximal run. -/

/-- The maximal runs of a sequence, as (length, value) pairs in order. -/
def runsOf : List Nat → List (Nat × Nat)
  | [] => []
  | v :: rest =>
    match runsOf rest with
    | [] => [(1, v)]
    | (k, u) :: rs => if u = v then (k + 1, v) :: rs else (1, v) :: (k, u) :: rs

/-- Concatenation of runs back into a sequence. -/
def runsToSeq (runs : List (Nat × Nat)) : List Nat :=
  runs.foldr (fun r acc => List.replicate r.1 r.2 ++ acc) []

/-- The byte stream the RLE writer produces over the varint-backed adapter:
one varint-encoded (count, value) pair per run, count first. -/
def runsBytes (runs : List (Nat × Nat)) : List Nat :=
  runs.foldr
    (fun r acc => Base128Int.putUnchecked r.1 ++ Base128Int.putUnchecked r.2 ++ acc) []

theorem runsOf_ne_nil (v : Nat) (rest : List Nat) : runsOf (v :: rest) ≠ [] := by
  cases h : runsOf rest with
  | nil => simp [runsOf, h]
  | cons p rs =>
    obtain ⟨k, u⟩ := p
    by_cases he : u = v <;> simp [runsOf, h, he]

theorem runsToSeq_runsOf : ∀ S : List Nat, runsToSeq (runsOf S) = S := by
  intro S
  induction S with
  | nil => rfl
  | cons v rest ih =>
    cases h : runsOf rest with
    | nil =>
      cases rest with
      | nil => rfl
      | cons x r => exact absurd h (runsOf_ne_nil x r)
    | cons p rs =>
      obtain ⟨k, u⟩ := p
      rw [h] at ih
      by_cases he : u = v
      · subst he
        have hru : runsOf (u :: rest) = (k + 1, u) :: rs := by simp [runsOf, h]
        rw [hru]
        rw [runsToSeq] at ih ⊢
        simp only [List.foldr_cons] at ih ⊢
        rw [List.replicate_succ, List.cons_append, ih]
      · have hru : runsOf (v :: rest) = (1, v) :: (k, u) :: rs := by
          simp [runsOf, h, he]
        rw [hru]
        rw [runsToSeq] at ih ⊢
        simp only [List.foldr_cons] at ih ⊢
        rw [ih]
        simp

theorem runsOf_length_pos : ∀ S : List Nat, ∀ p ∈ runsOf S, 1 ≤ p.1 := by
  intro S
  induction S with
  | nil => intro p hp; simp [runsOf] at hp
  | cons v rest ih =>
    intro p hp
    cases h : runsOf rest with
    | nil =>
      rw [runsOf, h] at hp
      simp at hp
      subst hp; norm_num
    | cons q rs =>
      obtain ⟨k, u⟩ := q
      simp only [runsOf, h] at hp
      by_cases he : u = v
      · rw [if_pos he] at hp
        rcases List.mem_cons.mp hp with rfl | hmem
        · norm_num
        · exact ih p (h ▸ List.mem_cons_of_mem _ hmem)
      · rw [if_neg he] at hp
        rcases List.mem_cons.mp hp with rfl | hmem
        · norm_num
        · exact ih p (h ▸ hmem)

theorem runsOf_val_mem : ∀ S : List Nat, ∀ p ∈ runsOf S, p.2 ∈ S := by
  intro S
  induction S with
  | nil => intro p hp; simp [runsOf] at hp
  | cons v rest ih =>
    intro p hp
    cases h : runsOf rest with
    | nil =>
      rw [runsOf, h] at hp
      simp at hp
      subst hp; simp
    | cons q rs =>
      obtain ⟨k, u⟩ := q
      simp only [runsOf, h] at hp
      by_cases he : u = v
      · rw [if_pos he] at hp
        rcases List.mem_cons.mp hp with rfl | hmem
        · simp
        · exact List.mem_cons_of_mem v (ih p (h ▸ List.mem_cons_of_mem _ hmem))
      · rw [if_neg he] at hp
        rcases List.mem_cons.mp hp with rfl | hmem
        · simp
        · exact List.mem_cons_of_mem v (ih p (h ▸ hmem))

theorem runsOf_chain : ∀ S : List Nat,
    List.Chain' (fun a b : Nat × Nat => a.2 ≠ b.2) (runsOf S) := by
  intro S
  induction S with
  | nil => exact List.chain'_nil
  | cons v rest ih =>
    cases h : runsOf rest with
    | nil => simp [runsOf, h]
    | cons q rs =>
      obtain ⟨k, u⟩ := q
      rw [h] at ih
      rcases List.chain'_cons'.mp ih with ⟨hhead, htail⟩
      by_cases he : u = v
      · subst he
        have hru : runsOf (u :: rest) = (k + 1, u) :: rs := by simp [runsOf, h]
        rw [hru]
        exact List.chain'_cons'.mpr ⟨hhead, htail⟩
      · have hru : runsOf (v :: rest) = (1, v) :: (k, u) :: rs := by
          simp [runsOf, h, he]
        rw [hru]
        refine List.chain'_cons'.mpr ⟨?_, ih⟩
        intro b hb
        simp at hb
        subst hb
        simpa using fun hvu => he hvu.symm

/-! Behaviour of the RLE writer over the varint-backed byte stream. -/

theorem rle_put_same (w : Nat) (prev reps : Nat) (data : List Nat) :
    (RLEStreamWriter w Base128StreamWriter).put (prev, reps, data) prev =
      some (prev, (reps + 1) % 2 ^ w, data) := by
  simp [RLEStreamWriter]

theorem rle_put_change (w : Nat) (prev reps : Nat) (data : List Nat) (v : Nat)
    (hne : v ≠ prev) (hreps : reps ≠ 0) :
    (RLEStreamWriter w Base128StreamWriter).put (prev, reps, data) v =
      some (v, (0 + 1) % 2 ^ w,
        data ++ Base128Int.putUnchecked reps ++ Base128Int.putUnchecked prev) := by
  simp [RLEStreamWriter, Base128StreamWriter, hne, hreps]

theorem rle_close_eq (w : Nat) (prev reps : Nat) (data : List Nat) :
    (RLEStreamWriter w Base128StreamWriter).close (prev, reps, data) =
      some (prev, reps,
        data ++ Base128Int.putUnchecked reps ++ Base128Int.putUnchecked prev) := by
  simp [RLEStreamWriter, Base128StreamWriter]

theorem writeAndClose_cons {σ : Type} (ws : WStream σ) (s : σ) (x : Nat)
    (L : List Nat) :
    writeAndClose ws s (x :: L) =
      (ws.put s x).bind fun s1 => writeAndClose ws s1 L := by
  cases h : ws.put s x <;> simp [writeAndClose, writeList, h]

theorem writeAndClose_append {σ : Type} (ws : WStream σ) (s : σ) (A B : List Nat) :
    writeAndClose ws s (A ++ B) =
      (writeList ws s A).bind fun s1 => writeAndClose ws s1 B := by
  cases h : writeList ws s A with
  | none =>
    have : (A ++ B).foldlM ws.put s = none := by
      rw [List.foldlM_append]
      rw [writeList] at h
      simp [h]
    simp [writeAndClose, writeList, h, this]
  | some s1 =>
    have : (A ++ B).foldlM ws.put s = B.foldlM ws.put s1 := by
      rw [List.foldlM_append]
      rw [writeList] at h
      simp [h]
    simp [writeAndClose, writeList, h, this]

/-- Extending the pending run: `put` of the pending value `j` more times only
increments `reps_`. -/
theorem rle_write_replicate (w : Nat) :
    ∀ j prev reps : Nat, ∀ data : List Nat, reps + j < 2 ^ w →
      writeList (RLEStreamWriter w Base128StreamWriter) (prev, reps, data)
          (List.replicate j prev) =
        some (prev, reps + j, data) := by
  intro j
  induction j with
  | zero => intro prev reps data _; simp [writeList]
  | succ j ih =>
    intro prev reps data hlt
    rw [List.replicate_succ, writeList, List.foldlM_cons, rle_put_same]
    have hmod : (reps + 1) % 2 ^ w = reps + 1 := Nat.mod_eq_of_lt (by omega)
    rw [hmod]
    have := ih prev (reps + 1) data (by omega)
    rw [writeList] at this
    show List.foldlM _ _ _ = _
    rw [this]
    have : reps + 1 + j = reps + (j + 1) := by omega
    rw [this]

/-- Main RLE writer invariant: with a pending run `(v, r)` and remaining
input made of runs none of which starts with `v`, the writer commits the
pending pair followed by one pair per run (each count capped below the TVal
modulus), and `close` flushes the last one. -/
theorem rle_write_runs (w : Nat) :
    ∀ runs : List (Nat × Nat), ∀ v r : Nat, ∀ data : List Nat,
      1 ≤ r → r < 2 ^ w →
      (∀ p ∈ runs, 1 ≤ p.1 ∧ p.1 < 2 ^ w) →
      List.Chain' (fun a b : Nat × Nat => a.2 ≠ b.2) runs →
      (∀ p ∈ runs.head?, p.2 ≠ v) →
      ∃ a b : Nat,
        writeAndClose (RLEStreamWriter w Base128StreamWriter) (v, r, data)
            (runsToSeq runs) =
          some (a, b,
            data ++ Base128Int.putUnchecked r ++ Base128Int.putUnchecked v ++
              runsBytes runs) := by
  intro runs
  induction runs with
  | nil =>
    intro v r data _ _ _ _ _
    refine ⟨v, r, ?_⟩
    show writeAndClose _ _ [] = _
    simp [writeAndClose, writeList, rle_close_eq, runsBytes]
  | cons q rest ih =>
    obtain ⟨k, u⟩ := q
    intro v r data hr1 hrw hruns hchain hhead
    have hu : u ≠ v := by
      have := hhead (k, u) (by simp)
      simpa using this
    have hk1 : 1 ≤ k := (hruns (k, u) (by simp)).1
    have hkw : k < 2 ^ w := (hruns (k, u) (by simp)).2
    have h2w : 1 < 2 ^ w := by omega
    obtain ⟨j, rfl⟩ : ∃ j, k = j + 1 := ⟨k - 1, by omega⟩
    have hsplit : runsToSeq ((j + 1, u) :: rest) =
        u :: (List.replicate j u ++ runsToSeq rest) := by
      simp [runsToSeq, List.replicate_succ]
    rw [hsplit, writeAndClose_cons,
      rle_put_change w v r data u hu (by omega)]
    rw [Option.some_bind]
    have hmod1 : (0 + 1) % 2 ^ w = 1 := Nat.mod_eq_of_lt (by omega)
    rw [hmod1]
    rw [writeAndClose_append,
      rle_write_replicate w j u 1 _ (by omega)]
    rw [Option.some_bind]
    rcases ih u (1 + j)
        (data ++ Base128Int.putUnchecked r ++ Base128Int.putUnchecked v)
        (by omega) (by omega)
        (fun p hp => hruns p (List.mem_cons_of_mem _ hp))
        (List.chain'_cons'.mp hchain).2
        (fun p hp => ((List.chain'_cons'.mp hchain).1 p hp).symm)
      with ⟨a, b, hw⟩
    refine ⟨a, b, ?_⟩
    rw [hw]
    have h1j : 1 + j = j + 1 := by omega
    rw [h1j]
    simp [runsBytes]

theorem rle_put_fresh (w : Nat) (prev : Nat) (data : List Nat) (v : Nat)
    (hne : v ≠ prev) :
    (RLEStreamWriter w Base128StreamWriter).put (prev, 0, data) v =
      some (v, (0 + 1) % 2 ^ w, data) := by
  simp [RLEStreamWriter, hne]

/-! Behaviour of the RLE reader over the varint-backed byte stream. -/

theorem readN_add {σ : Type} (rs : RStream σ) :
    ∀ m n : Nat, ∀ s : σ,
      readN rs (m + n) s =
        (readN rs m s).bind fun xs =>
          (readN rs n xs.2).bind fun ys => some (xs.1 ++ ys.1, ys.2) := by
  intro m
  induction m with
  | zero =>
    intro n s
    rw [Nat.zero_add]
    cases h : readN rs n s <;> simp [readN, h]
  | succ m ih =>
    intro n s
    have hadd : m + 1 + n = (m + n) + 1 := by omega
    rw [hadd]
    cases hn : rs.next s with
    | none => simp [readN, hn]
    | some vs1 =>
      simp only [readN, hn]
      rw [ih n vs1.2]
      cases h1 : readN rs m vs1.2 with
      | none => simp
      | some xs =>
        cases h2 : readN rs n xs.2 <;> simp [h2]

/-- Draining the current run: with `reps_ = j` remaining, `j` reads return
the held value `j` times without touching the wrapped stream. -/
theorem rle_read_run (w : Nat) :
    ∀ j p : Nat, ∀ rem : List Nat, j < 2 ^ w →
      readN (RLEStreamReader w (Base128StreamReader w)) j (p, j, rem) =
        some (List.replicate j p, (p, 0, rem)) := by
  intro j
  induction j with
  | zero => intro p rem _; simp [readN]
  | succ j ih =>
    intro p rem hlt
    have hnext : (RLEStreamReader w (Base128StreamReader w)).next (p, j + 1, rem) =
        some (p, p, (j + 1 + (2 ^ w - 1)) % 2 ^ w, rem) := by
      simp [RLEStreamReader]
    have hw1 : 1 ≤ 2 ^ w := Nat.one_le_two_pow
    have harith : j + 1 + (2 ^ w - 1) = j + 2 ^ w := by omega
    have hmod : (j + 1 + (2 ^ w - 1)) % 2 ^ w = j := by
      rw [harith, Nat.add_mod_right]
      exact Nat.mod_eq_of_lt (by omega)
    rw [hmod] at hnext
    simp only [readN, hnext]
    rw [ih p rem (by omega)]
    simp [List.replicate_succ]

/-- Reading one committed pair: with no run pending, `k` reads consume the
varint pair (k, u) from the byte stream and return `u` exactly `k` times. -/
theorem rle_read_pair (w : Nat) (k u p : Nat) (rem : List Nat)
    (hk1 : 1 ≤ k) (hkw : k < 2 ^ w) (huw : u < 2 ^ w) :
    readN (RLEStreamReader w (Base128StreamReader w)) k
        (p, 0, Base128Int.putUnchecked k ++ (Base128Int.putUnchecked u ++ rem)) =
      some (List.replicate k u, (u, 0, rem)) := by
  have hgk := Base128Int.get_putUnchecked w k 0 0 (Base128Int.putUnchecked u ++ rem)
    (by norm_num) (by simpa using hkw)
  have hgu := Base128Int.get_putUnchecked w u 0 0 rem (by norm_num) (by simpa using huw)
  have hnext : (RLEStreamReader w (Base128StreamReader w)).next
      (p, 0, Base128Int.putUnchecked k ++ (Base128Int.putUnchecked u ++ rem)) =
      some (u, u, (k + (2 ^ w - 1)) % 2 ^ w, rem) := by
    simp only [RLEStreamReader, Base128StreamReader, if_pos rfl]
    rw [hgk]
    simp only [Option.some_bind]
    rw [hgu]
    simp
  obtain ⟨j, rfl⟩ : ∃ j, k = j + 1 := ⟨k - 1, by omega⟩
  have hw1 : 1 ≤ 2 ^ w := Nat.one_le_two_pow
  have harith : j + 1 + (2 ^ w - 1) = j + 2 ^ w := by omega
  have hmod : (j + 1 + (2 ^ w - 1)) % 2 ^ w = j := by
    rw [harith, Nat.add_mod_right]
    exact Nat.mod_eq_of_lt (by omega)
  rw [hmod] at hnext
  simp only [readN, hnext]
  rw [rle_read_run w j u rem (by omega)]
  simp [List.replicate_succ]

/-- Reading back every committed pair reproduces the run concatenation. -/
theorem rle_read_runs (w : Nat) :
    ∀ runs : List (Nat × Nat),
      (∀ p ∈ runs, 1 ≤ p.1 ∧ p.1 < 2 ^ w ∧ p.2 < 2 ^ w) →
      ∀ p0 : Nat, ∀ rem : List Nat,
        ∃ pL : Nat,
          readN (RLEStreamReader w (Base128StreamReader w)) (runsToSeq runs).length
              (p0, 0, runsBytes runs ++ rem) =
            some (runsToSeq runs, (pL, 0, rem)) := by
  intro runs
  induction runs with
  | nil =>
    intro _ p0 rem
    refine ⟨p0, ?_⟩
    simp [runsToSeq, runsBytes, readN]
  | cons q rest ih =>
    obtain ⟨k, u⟩ := q
    intro hconds p0 rem
    have hk := hconds (k, u) (by simp)
    have hcons : runsToSeq ((k, u) :: rest) =
        List.replicate k u ++ runsToSeq rest := rfl
    have hbytes : runsBytes ((k, u) :: rest) =
        Base128Int.putUnchecked k ++ Base128Int.putUnchecked u ++ runsBytes rest := rfl
    rcases ih (fun p hp => hconds p (List.mem_cons_of_mem _ hp)) u rem with ⟨pL, hrest⟩
    refine ⟨pL, ?_⟩
    rw [hcons, hbytes]
    have hlen : (List.replicate k u ++ runsToSeq rest).length =
        k + (runsToSeq rest).length := by simp
    rw [hlen, readN_add]
    have hassoc : Base128Int.putUnchecked k ++ Base128Int.putUnchecked u ++
        runsBytes rest ++ rem =
        Base128Int.putUnchecked k ++ (Base128Int.putUnchecked u ++
          (runsBytes rest ++ rem)) := by
      simp [List.append_assoc]
    rw [hassoc, rle_read_pair w k u p0 (runsBytes rest ++ rem) hk.1 hk.2.1 hk.2.2]
    rw [Option.some_bind]
    rw [hrest]
    simp

/-- Claim C5, amended: the RLE round trip (put every element, `close()` once,
read the same count back) reproduces any sequence of values of the chosen
width exactly, provided every maximal run is shorter than `2 ^ w` — the run
counter `reps_` is itself a TVal of width `w`, and a run at least that long
wraps it (see the counterexample). -/
theorem spec_c5 (w : Nat) (S : List Nat) (hval : ∀ x ∈ S, x < 2 ^ w)
    (hrun : ∀ p ∈ runsOf S, p.1 < 2 ^ w) :
    rleRoundtrip w S = some S := by
  cases hS : runsOf S with
  | nil =>
    have hnil : S = [] := by
      cases S with
      | nil => rfl
      | cons x r => exact absurd hS (runsOf_ne_nil x r)
    subst hnil
    simp [rleRoundtrip, writeAndClose, writeList, rle_close_eq, readN]
  | cons q rest =>
    obtain ⟨k, u⟩ := q
    have hseq : runsToSeq ((k, u) :: rest) = S := by
      rw [← hS]; exact runsToSeq_runsOf S
    have hmemS : ∀ p ∈ runsOf S, 1 ≤ p.1 ∧ p.1 < 2 ^ w ∧ p.2 < 2 ^ w := by
      intro p hp
      exact ⟨runsOf_length_pos S p hp, hrun p hp,
        hval p.2 (runsOf_val_mem S p hp)⟩
    have hk : 1 ≤ k ∧ k < 2 ^ w ∧ u < 2 ^ w := by
      have := hmemS (k, u) (by rw [hS]; simp)
      simpa using this
    have hchain : List.Chain' (fun a b : Nat × Nat => a.2 ≠ b.2) ((k, u) :: rest) := by
      rw [← hS]; exact runsOf_chain S
    have h2w : 1 < 2 ^ w := by omega
    obtain ⟨j, rfl⟩ : ∃ j, k = j + 1 := ⟨k - 1, by omega⟩
    have hsplit : S = u :: (List.replicate j u ++ runsToSeq rest) := by
      rw [← hseq]
      simp [runsToSeq, List.replicate_succ]
    have hput0 : (RLEStreamWriter w Base128StreamWriter).put (0, 0, []) u =
        some (u, (0 + 1) % 2 ^ w, []) := by
      by_cases hu0 : u = 0
      · subst hu0; exact rle_put_same w 0 0 []
      · exact rle_put_fresh w 0 [] u hu0
    have hmod1 : (0 + 1) % 2 ^ w = 1 := Nat.mod_eq_of_lt (by omega)
    rcases rle_write_runs w rest u (1 + j) []
        (by omega) (by omega)
        (fun p hp => ⟨(hmemS p (by rw [hS]; exact List.mem_cons_of_mem _ hp)).1,
          (hmemS p (by rw [hS]; exact List.mem_cons_of_mem _ hp)).2.1⟩)
        (List.chain'_cons'.mp hchain).2
        (fun p hp => ((List.chain'_cons'.mp hchain).1 p hp).symm)
      with ⟨a, b, hw⟩
    have hW : writeAndClose (RLEStreamWriter w Base128StreamWriter) (0, 0, []) S =
        some (a, b, runsBytes ((j + 1, u) :: rest)) := by
      rw [hsplit, writeAndClose_cons, hput0, Option.some_bind, hmod1,
        writeAndClose_append, rle_write_replicate w j u 1 [] (by omega),
        Option.some_bind, hw]
      have h1j : 1 + j = j + 1 := by omega
      rw [h1j]
      simp [runsBytes]
    rcases rle_read_runs w ((j + 1, u) :: rest)
        (by rw [← hS]; exact hmemS) 0 [] with ⟨pL, hR⟩
    rw [List.append_nil, hseq] at hR
    simp only [rleRoundtrip, hW, hR]

/-- Witness for the amended C5 at width 8, on a sequence with runs of length
3, 1 and 2 (all shorter than 256). -/
theorem spec_c5_witness : rleRoundtrip 8 [7, 7, 7, 9, 200, 200] =
    some [7, 7, 7, 9, 200, 200] :=
  spec_c5 8 [7, 7, 7, 9, 200, 200] (by decide) (by decide)

end Akumuli
